import Mathlib

/-!
# dftracer-utils: verification of the range-reader / indexer specification

The repository ships the indexed-gzip core as a native extension
(`reader_ext` / `indexer_ext`); the Python sources contain only the glue
(`dftracer/utils/__init__.py`) and the test-suite.  The core operations are
therefore modelled here from the specification (spec.md sections 3, 4, 6, 7
and 8), on an uncompressed byte stream represented as `List Nat` (one `Nat`
per byte, newline = 10).  Deflate itself is out of scope: a gzip source is
modelled by the chunk sequence its decoder emits, and `resume_at` a
checkpoint is modelled by its specified effect of emitting the uncompressed
stream from the checkpoint's `uc_offset` onward.
-/

namespace DFTracer

/-- The newline byte that terminates a line. -/
def NL : Nat := 10

/-! ## Line table

`linesTable v i p` scans the byte list `v`, whose first byte sits at
uncompressed offset `i`, with the current line having started at offset
`p ≤ i`.  It returns the `(start, terminator)` offset pairs of all complete
`\x0a`-terminated lines.  A trailing unterminated line yields no entry. -/

/-- Modelled from the spec: the line structure of an uncompressed stream -
"a line is a maximal run of bytes terminated by a single `\x0a`". -/
def linesTable : List Nat → Nat → Nat → List (Nat × Nat)
  | [], _, _ => []
  | b :: v, i, p =>
    if b = NL then (p, i) :: linesTable v (i + 1) (i + 1)
    else linesTable v (i + 1) p

/-- Modelled from the spec (section 4.E / 4.F): the streaming line-bytes
framer.  Scans the decoded bytes, accumulating the current line in `acc`;
when a terminator at offset `i` is seen for a line started at offset `p`,
the line is emitted iff `s ≤ p` and `i < e` ("emit only lines whose start
offset ≥ start and whose terminator offset < end").  The terminator is not
part of the emitted content. -/
def scanLines (s e : Nat) : List Nat → Nat → Nat → List Nat → List (List Nat)
  | [], _, _, _ => []
  | b :: v, i, p, acc =>
    if b = NL then
      (if s ≤ p ∧ i < e then [acc] else []) ++ scanLines s e v (i + 1) (i + 1) []
    else
      scanLines s e v (i + 1) p (acc ++ [b])

/-- Modelled from the spec: `read_line_bytes(start, end)` of a reader over
an uncompressed stream `u` (the framers are stateless pure functions over
the decoded byte stream, spec section 4.F). -/
def read_line_bytes (u : List Nat) (s e : Nat) : List (List Nat) :=
  scanLines s e u 0 0 []

/-- The content of the line `(start, terminator)` inside the stream `u`. -/
def lineContent (u : List Nat) (pt : Nat × Nat) : List Nat :=
  (u.drop pt.1).take (pt.2 - pt.1)

/-! ### Structure of the line table -/

theorem linesTable_bounds (v : List Nat) : ∀ i p, p ≤ i →
    ∀ pt ∈ linesTable v i p,
      p ≤ pt.1 ∧ pt.1 ≤ pt.2 ∧ i ≤ pt.2 ∧ (pt.1 = p ∨ i + 1 ≤ pt.1) := by
  induction v with
  | nil => intro i p _ pt hpt; simp [linesTable] at hpt
  | cons b v ih =>
    intro i p hpi pt hpt
    by_cases hb : b = NL
    · rw [linesTable, if_pos hb] at hpt
      rcases List.mem_cons.mp hpt with h | h
      · subst h; exact ⟨le_refl _, hpi, le_refl _, Or.inl rfl⟩
      · have := ih (i + 1) (i + 1) (le_refl _) pt h
        refine ⟨by omega, this.2.1, by omega, Or.inr (by omega)⟩
    · rw [linesTable, if_neg hb] at hpt
      have := ih (i + 1) p (by omega) pt hpt
      rcases this.2.2.2 with h | h
      · exact ⟨this.1, this.2.1, by omega, Or.inl h⟩
      · exact ⟨this.1, this.2.1, by omega, Or.inr (by omega)⟩

theorem linesTable_chain (v : List Nat) : ∀ i p, p ≤ i →
    List.Chain' (fun x y : Nat × Nat => x.2 < y.1) (linesTable v i p) := by
  induction v with
  | nil => intro i p _; simp [linesTable]
  | cons b v ih =>
    intro i p hpi
    by_cases hb : b = NL
    · rw [linesTable, if_pos hb]
      refine List.chain'_cons'.mpr ⟨?_, ih (i + 1) (i + 1) (le_refl _)⟩
      intro y hy
      have hmem := List.mem_of_mem_head? hy
      have := linesTable_bounds v (i + 1) (i + 1) (le_refl _) y hmem
      omega
    · rw [linesTable, if_neg hb]
      exact ih (i + 1) p (by omega)

/-! ### The scanner agrees with filtering the line table -/

/-- Content of the line `pt` as seen from the middle of a scan: the bytes
before offset `i` already sit in `acc`, the rest come from `v`. -/
def lineContentFrom (v : List Nat) (i : Nat) (acc : List Nat) (pt : Nat × Nat) : List Nat :=
  if pt.1 ≤ i then acc ++ v.take (pt.2 - i) else (v.drop (pt.1 - i)).take (pt.2 - pt.1)

theorem scanLines_eq_filter (s e : Nat) (v : List Nat) : ∀ i p acc, p ≤ i →
    scanLines s e v i p acc =
      ((linesTable v i p).filter (fun pt => decide (s ≤ pt.1 ∧ pt.2 < e))).map
        (lineContentFrom v i acc) := by
  induction v with
  | nil => intro i p acc _; simp [scanLines, linesTable]
  | cons b v ih =>
    intro i p acc hpi
    by_cases hb : b = NL
    · rw [scanLines, if_pos hb, linesTable, if_pos hb]
      rw [List.filter_cons]
      have htail : scanLines s e v (i + 1) (i + 1) [] =
          ((linesTable v (i + 1) (i + 1)).filter
            (fun pt => decide (s ≤ pt.1 ∧ pt.2 < e))).map (lineContentFrom v (i + 1) []) :=
        ih (i + 1) (i + 1) [] (le_refl _)
      have hmapeq :
          ((linesTable v (i + 1) (i + 1)).filter
            (fun pt => decide (s ≤ pt.1 ∧ pt.2 < e))).map (lineContentFrom v (i + 1) []) =
          ((linesTable v (i + 1) (i + 1)).filter
            (fun pt => decide (s ≤ pt.1 ∧ pt.2 < e))).map (lineContentFrom (b :: v) i acc) := by
        apply List.map_congr_left
        intro pt hpt
        have hmem := List.mem_of_mem_filter hpt
        have hbd := linesTable_bounds v (i + 1) (i + 1) (le_refl _) pt hmem
        unfold lineContentFrom
        rcases hbd.2.2.2 with h1 | h1
        · rw [if_pos (by omega : pt.1 ≤ i + 1), if_neg (by omega : ¬ pt.1 ≤ i)]
          have hd : pt.1 - i = 0 + 1 := by omega
          rw [hd, List.drop_succ_cons, List.drop_zero, List.nil_append]
          have : pt.2 - pt.1 = pt.2 - (i + 1) := by omega
          rw [this]
        · rw [if_neg (by omega : ¬ pt.1 ≤ i + 1), if_neg (by omega : ¬ pt.1 ≤ i)]
          have hd : pt.1 - i = (pt.1 - (i + 1)) + 1 := by omega
          rw [hd, List.drop_succ_cons]
      by_cases hc : s ≤ p ∧ i < e
      · rw [if_pos hc, if_pos (by simpa using hc)]
        rw [List.map_cons, htail, hmapeq]
        have hhead : lineContentFrom (b :: v) i acc (p, i) = acc := by
          unfold lineContentFrom
          rw [if_pos (by simpa using hpi)]
          simp
        rw [hhead]
        rfl
      · rw [if_neg hc, if_neg (by simpa using hc)]
        rw [htail, hmapeq]
        rfl
    · rw [scanLines, if_neg hb, linesTable, if_neg hb]
      rw [ih (i + 1) p (acc ++ [b]) (by omega)]
      apply List.map_congr_left
      intro pt hpt
      have hmem := List.mem_of_mem_filter hpt
      have hbd := linesTable_bounds v (i + 1) p (by omega) pt hmem
      unfold lineContentFrom
      rcases hbd.2.2.2 with h1 | h1
      · have hple : pt.1 ≤ i := by omega
        rw [if_pos (by omega : pt.1 ≤ i + 1), if_pos hple]
        have ht : pt.2 - i = (pt.2 - (i + 1)) + 1 := by omega
        rw [ht, List.take_succ_cons]
        simp
      · rw [if_neg (by omega : ¬ pt.1 ≤ i + 1), if_neg (by omega : ¬ pt.1 ≤ i)]
        have hd : pt.1 - i = (pt.1 - (i + 1)) + 1 := by omega
        rw [hd, List.drop_succ_cons]

theorem read_line_bytes_eq_filter (u : List Nat) (s e : Nat) :
    read_line_bytes u s e =
      ((linesTable u 0 0).filter (fun pt => decide (s ≤ pt.1 ∧ pt.2 < e))).map
        (lineContent u) := by
  rw [read_line_bytes, scanLines_eq_filter s e u 0 0 [] (le_refl _)]
  apply List.map_congr_left
  intro pt hpt
  unfold lineContentFrom lineContent
  by_cases h : pt.1 ≤ 0
  · rw [if_pos h]
    have h0 : pt.1 = 0 := by omega
    rw [h0]
    simp
  · rw [if_neg h]
    simp

/-! ## Chunked reading (C1)

`readChunks u a mids e` reads the contiguous ranges
`[a, m₁), [m₁, m₂), …, [mₖ, e)` with `read_line_bytes` and concatenates
the results, exactly as the Dask-style batch readers do. -/

def readChunks (u : List Nat) (a : Nat) : List Nat → Nat → List (List Nat)
  | [], e => read_line_bytes u a e
  | m :: ms, e => read_line_bytes u a m ++ readChunks u m ms e

/-- A cut point `b` is line-aligned in `u` when it does not fall strictly
inside any complete line (after the line's first byte, at or before its
terminator). -/
def CutAligned (u : List Nat) (b : Nat) : Prop :=
  ∀ pt ∈ linesTable u 0 0, ¬(pt.1 < b ∧ b ≤ pt.2)

instance (u : List Nat) (b : Nat) : Decidable (CutAligned u b) := by
  unfold CutAligned; infer_instance

theorem chain_snd_lt_fst (x : Nat × Nat) (l : List (Nat × Nat))
    (hch : List.Chain' (fun a b : Nat × Nat => a.2 < b.1) (x :: l))
    (hpt : ∀ pt ∈ l, pt.1 ≤ pt.2) : ∀ y ∈ l, x.2 < y.1 := by
  induction l generalizing x with
  | nil => intro y hy; simp at hy
  | cons z l ih =>
    intro y hy
    have hxz : x.2 < z.1 := (List.chain'_cons.mp hch).1
    rcases List.mem_cons.mp hy with h | h
    · subst h; exact hxz
    · have hz : z.1 ≤ z.2 := hpt z (List.mem_cons_self _ _)
      have := ih z (List.chain'_cons.mp hch).2 (fun pt hpt' => hpt pt (List.mem_cons_of_mem _ hpt')) y h
      omega

/-- Filtering a sorted line table over two adjacent ranges and concatenating
equals filtering over the union, provided the shared cut `b` splits no line. -/
theorem filter_ranges_append (l : List (Nat × Nat))
    (hpt : ∀ pt ∈ l, pt.1 ≤ pt.2)
    (hch : List.Chain' (fun x y : Nat × Nat => x.2 < y.1) l)
    (a b c : Nat) (hab : a ≤ b) (hbc : b ≤ c)
    (halign : ∀ pt ∈ l, ¬(pt.1 < b ∧ b ≤ pt.2)) :
    l.filter (fun pt => decide (a ≤ pt.1 ∧ pt.2 < b)) ++
      l.filter (fun pt => decide (b ≤ pt.1 ∧ pt.2 < c)) =
    l.filter (fun pt => decide (a ≤ pt.1 ∧ pt.2 < c)) := by
  induction l with
  | nil => simp
  | cons x l ih =>
    have hx : x.1 ≤ x.2 := hpt x (List.mem_cons_self _ _)
    have hpt' : ∀ pt ∈ l, pt.1 ≤ pt.2 := fun pt h => hpt pt (List.mem_cons_of_mem _ h)
    have hch' : List.Chain' (fun x y : Nat × Nat => x.2 < y.1) l :=
      (List.chain'_cons'.mp hch).2
    have halign' : ∀ pt ∈ l, ¬(pt.1 < b ∧ b ≤ pt.2) :=
      fun pt h => halign pt (List.mem_cons_of_mem _ h)
    have hxalign := halign x (List.mem_cons_self _ _)
    have hmain := ih hpt' hch' halign'
    simp only [List.filter_cons, decide_eq_true_eq]
    by_cases hxb : x.2 < b
    · -- x ends before the cut: it can only be in the left range
      rw [if_neg (show ¬(b ≤ x.1 ∧ x.2 < c) by omega)]
      by_cases hax : a ≤ x.1
      · rw [if_pos (show a ≤ x.1 ∧ x.2 < b from ⟨hax, hxb⟩),
          if_pos (show a ≤ x.1 ∧ x.2 < c from ⟨hax, by omega⟩),
          List.cons_append, hmain]
      · rw [if_neg (show ¬(a ≤ x.1 ∧ x.2 < b) from fun h => hax h.1),
          if_neg (show ¬(a ≤ x.1 ∧ x.2 < c) from fun h => hax h.1), hmain]
    · -- x ends at or after the cut: by alignment it starts at or after it
      have hxstart : b ≤ x.1 := by omega
      have hlempty : l.filter (fun pt => decide (a ≤ pt.1 ∧ pt.2 < b)) = [] := by
        apply List.filter_eq_nil_iff.mpr
        intro pt hptl
        have h3 := chain_snd_lt_fst x l hch hpt' pt hptl
        have h4 := hpt' pt hptl
        simp only [decide_eq_true_eq, not_and]
        omega
      have hltail : l.filter (fun pt => decide (b ≤ pt.1 ∧ pt.2 < c)) =
          l.filter (fun pt => decide (a ≤ pt.1 ∧ pt.2 < c)) := by
        apply List.filter_congr
        intro pt hptl
        have h3 := chain_snd_lt_fst x l hch hpt' pt hptl
        have h4 := hpt' pt hptl
        simp only [decide_eq_decide]
        constructor
        · rintro ⟨h5, h6⟩; exact ⟨by omega, h6⟩
        · rintro ⟨h5, h6⟩; exact ⟨by omega, h6⟩
      rw [if_neg (show ¬(a ≤ x.1 ∧ x.2 < b) by omega), hlempty, List.nil_append]
      by_cases hxc : x.2 < c
      · rw [if_pos (show b ≤ x.1 ∧ x.2 < c from ⟨hxstart, hxc⟩),
          if_pos (show a ≤ x.1 ∧ x.2 < c from ⟨by omega, hxc⟩), hltail]
      · rw [if_neg (show ¬(b ≤ x.1 ∧ x.2 < c) from fun h => hxc h.2),
          if_neg (show ¬(a ≤ x.1 ∧ x.2 < c) from fun h => hxc h.2), hltail]

/-- Adjacent ranges merge: chunked `read_line_bytes` over `[a,b)` then
`[b,c)` equals one read over `[a,c)` when the cut `b` splits no line. -/
theorem read_line_bytes_append (u : List Nat) (a b c : Nat)
    (hab : a ≤ b) (hbc : b ≤ c) (halign : CutAligned u b) :
    read_line_bytes u a b ++ read_line_bytes u b c = read_line_bytes u a c := by
  rw [read_line_bytes_eq_filter, read_line_bytes_eq_filter, read_line_bytes_eq_filter,
    ← List.map_append]
  congr 1
  apply filter_ranges_append _ _ _ a b c hab hbc halign
  · intro pt hpt
    exact (linesTable_bounds u 0 0 (le_refl _) pt hpt).2.1
  · exact linesTable_chain u 0 0 (le_refl _)

theorem chain_le_last (e : Nat) : ∀ (l : List Nat) (x : Nat),
    List.Chain (· ≤ ·) x (l ++ [e]) → x ≤ e := by
  intro l
  induction l with
  | nil =>
    intro x h
    rw [List.nil_append] at h
    exact (List.chain_cons.mp h).1
  | cons m ms ih =>
    intro x h
    rw [List.cons_append, List.chain_cons] at h
    exact le_trans h.1 (ih m h.2)

theorem readChunks_eq (u : List Nat) : ∀ (mids : List Nat) (a e : Nat),
    List.Chain (· ≤ ·) a (mids ++ [e]) →
    (∀ m ∈ mids, CutAligned u m) →
    readChunks u a mids e = read_line_bytes u a e := by
  intro mids
  induction mids with
  | nil => intro a e _ _; rfl
  | cons m ms ih =>
    intro a e hch halign
    rw [List.cons_append, List.chain_cons] at hch
    rw [readChunks, ih m e hch.2 (fun x hx => halign x (List.mem_cons_of_mem _ hx))]
    exact read_line_bytes_append u a m e hch.1 (chain_le_last e ms m hch.2)
      (halign m (List.mem_cons_self _ _))

/-! ## Claim theorems C1 and C2 -/

/-- C2: for every stream and every byte range `[start, end)`,
`read_line_bytes(start, end)` returns exactly those complete
newline-terminated lines whose first byte lies at offset `≥ start` and whose
terminating newline lies at offset `< end` (each line's content excludes the
terminator); in particular, when no complete line satisfies both bounds the
result is the empty list. -/
theorem read_line_bytes_boundary_semantics (u : List Nat) (s e : Nat) :
    read_line_bytes u s e =
      ((linesTable u 0 0).filter (fun pt => decide (s ≤ pt.1 ∧ pt.2 < e))).map
        (lineContent u) ∧
    ((∀ pt ∈ linesTable u 0 0, ¬(s ≤ pt.1 ∧ pt.2 < e)) → read_line_bytes u s e = []) := by
  refine ⟨read_line_bytes_eq_filter u s e, fun h => ?_⟩
  rw [read_line_bytes_eq_filter u s e]
  have : (linesTable u 0 0).filter (fun pt => decide (s ≤ pt.1 ∧ pt.2 < e)) = [] := by
    apply List.filter_eq_nil_iff.mpr
    intro pt hpt
    simpa using h pt hpt
  rw [this, List.map_nil]

/-- Witness for C2: on the stream "ab\x0a" the range `[2, 3)` contains no
complete line, and the reader returns the empty list. -/
theorem read_line_bytes_boundary_semantics_witness :
    read_line_bytes [97, 98, 10] 2 3 =
      ((linesTable [97, 98, 10] 0 0).filter (fun pt => decide (2 ≤ pt.1 ∧ pt.2 < 3))).map
        (lineContent [97, 98, 10]) ∧
    read_line_bytes [97, 98, 10] 2 3 = [] :=
  ⟨(read_line_bytes_boundary_semantics [97, 98, 10] 2 3).1,
   (read_line_bytes_boundary_semantics [97, 98, 10] 2 3).2 (by decide)⟩

/-- C1 fails as stated: the partition of `[0, 3)` of the stream "ab\x0a"
into `[0, 1)` and `[1, 3)` cuts the single line "ab" at offset 1, and the
concatenation of the chunked reads loses that line: it is empty while the
whole-range read returns the line.  (A chunk boundary strictly inside a
line excludes the line from both chunks: its terminator is past the left
chunk's end and its first byte is before the right chunk's start.) -/
theorem read_line_bytes_chunking_counterexample :
    readChunks [97, 98, 10] 0 [1] 3 ≠ read_line_bytes [97, 98, 10] 0 3 := by
  decide

/-- C1 (amended): for every partition of `[0, U)` into contiguous ranges
whose internal cut points never fall strictly inside a complete line (in
particular any partition whose cuts land on line boundaries), the
concatenation of `read_line_bytes` over the ranges in order equals
`read_line_bytes(0, U)`: same lines, same order, none lost, none
duplicated. -/
theorem read_line_bytes_chunking_aligned (u : List Nat) (mids : List Nat)
    (hchain : List.Chain (· ≤ ·) 0 (mids ++ [u.length]))
    (halign : ∀ m ∈ mids, CutAligned u m) :
    readChunks u 0 mids u.length = read_line_bytes u 0 u.length :=
  readChunks_eq u mids 0 u.length hchain halign

/-- Witness for C1 (amended): the stream "ab\x0acd\x0a" partitioned into
`[0, 3)` and `[3, 6)` — the cut at 3 is line-aligned — reproduces the
whole-range read. -/
theorem read_line_bytes_chunking_aligned_witness :
    (∀ m ∈ [3], CutAligned [97, 98, 10, 99, 100, 10] m) ∧
    readChunks [97, 98, 10, 99, 100, 10] 0 [3] 6 =
      read_line_bytes [97, 98, 10, 99, 100, 10] 0 6 :=
  ⟨by decide,
   read_line_bytes_chunking_aligned [97, 98, 10, 99, 100, 10] [3]
     (List.Chain.cons (by decide) (List.Chain.cons (by decide) List.Chain.nil))
     (by decide)⟩

/-! ## Byte-range reading, checkpoints and the cursor (C3, C4, C6, C7) -/

/-- Error kinds of the reader/indexer surface (spec section 7). -/
inductive ReaderError where
  | NotFound
  | StaleIndex
  | CorruptIndex
  | CorruptStream
  | OutOfRange
  | IoError
  | Invalid
  deriving DecidableEq, Repr

/-- Modelled from the spec: `read_bytes(start, end)` over an uncompressed
stream `u` "returns exactly `end - start` uncompressed bytes when
`0 ≤ start < end ≤ U`; fails with `OutOfRange` otherwise" (spec 4.E). -/
def read_bytes (u : List Nat) (s e : Nat) : Except ReaderError (List Nat) :=
  if s < e ∧ e ≤ u.length then Except.ok ((u.drop s).take (e - s))
  else Except.error ReaderError.OutOfRange

/-- Checkpoint record (spec section 3).  `bits`, `dict_compressed` and
`line_offset_in_block` belong to the deflate decoder state, which is out of
the shallow embedding's reach; they are carried but uninterpreted. -/
structure CheckpointInfo where
  checkpoint_idx : Nat
  uc_offset : Nat
  uc_size : Nat
  c_offset : Nat
  bits : Nat
  dict_compressed : List Nat
  num_lines : Nat
  line_offset_in_block : Nat
  deriving DecidableEq, Repr

/-- Scan accumulator for `findCheckpoint`: keeps the last checkpoint seen
whose `uc_offset` is at most the target. -/
def findCheckpointGo (t : Nat) : Option CheckpointInfo → List CheckpointInfo →
    Option CheckpointInfo
  | acc, [] => acc
  | acc, c :: rest =>
    if c.uc_offset ≤ t then findCheckpointGo t (some c) rest
    else findCheckpointGo t acc rest

/-- Modelled from the spec (section 4.D): given a target `uc_offset` T,
return the greatest checkpoint with `uc_offset ≤ T`; `find_checkpoint(0)`
returns the no-checkpoint sentinel ("cursor primes from the stream start
instead of resuming"). -/
def findCheckpoint (cps : List CheckpointInfo) (t : Nat) : Option CheckpointInfo :=
  if t = 0 then none
  else findCheckpointGo t none cps

/-- Modelled from the spec (section 4.E positioning algorithm): serve a
request starting at `s` by locating the checkpoint `C` with the largest
`uc_offset ≤ s` (resuming there emits the uncompressed stream from
`C.uc_offset` onward, spec 4.A), discarding `s - C.uc_offset` bytes of
prefix, and taking `e - s` bytes; with no applicable checkpoint the stream
is opened from the start. -/
def cursorReadBytes (cps : List CheckpointInfo) (u : List Nat) (s e : Nat) :
    Except ReaderError (List Nat) :=
  if s < e ∧ e ≤ u.length then
    match findCheckpoint cps s with
    | none => Except.ok ((u.drop s).take (e - s))
    | some c => Except.ok (((u.drop c.uc_offset).drop (s - c.uc_offset)).take (e - s))
  else Except.error ReaderError.OutOfRange

theorem findCheckpointGo_le (t : Nat) : ∀ (cps : List CheckpointInfo)
    (acc : Option CheckpointInfo) (c : CheckpointInfo),
    (∀ a, acc = some a → a.uc_offset ≤ t) →
    findCheckpointGo t acc cps = some c → c.uc_offset ≤ t := by
  intro cps
  induction cps with
  | nil => intro acc c hacc h; exact hacc c h
  | cons x rest ih =>
    intro acc c hacc h
    rw [findCheckpointGo] at h
    by_cases hx : x.uc_offset ≤ t
    · rw [if_pos hx] at h
      exact ih (some x) c (fun a ha => by cases ha; exact hx) h
    · rw [if_neg hx] at h
      exact ih acc c hacc h

/-- Any checkpoint returned by `findCheckpoint t` has `uc_offset ≤ t`. -/
theorem findCheckpoint_le (cps : List CheckpointInfo) (t : Nat) (c : CheckpointInfo)
    (h : findCheckpoint cps t = some c) : c.uc_offset ≤ t := by
  rw [findCheckpoint] at h
  by_cases ht : t = 0
  · rw [if_pos ht] at h; cases h
  · rw [if_neg ht] at h
    exact findCheckpointGo_le t cps none c (fun a ha => by cases ha) h

/-- The checkpoint-positioning cursor refines the plain byte-range
contract: for every checkpoint list and every range, the two agree. -/
theorem cursorReadBytes_eq_read_bytes (cps : List CheckpointInfo) (u : List Nat)
    (s e : Nat) : cursorReadBytes cps u s e = read_bytes u s e := by
  rw [cursorReadBytes, read_bytes]
  by_cases hr : s < e ∧ e ≤ u.length
  · rw [if_pos hr, if_pos hr]
    cases hfc : findCheckpoint cps s with
    | none => rfl
    | some c =>
      have hle := findCheckpoint_le cps s c hfc
      simp only []
      rw [List.drop_drop]
      have hsum : c.uc_offset + (s - c.uc_offset) = s := by omega
      rw [hsum]
  · rw [if_neg hr, if_neg hr]

/-- C3: `read_bytes(start, end)` returns exactly `end - start` uncompressed
bytes if and only if `0 ≤ start < end ≤ U`, and fails with `OutOfRange`
otherwise; in particular `read_bytes(U - 10, U)` returns exactly 10 bytes
(for U ≥ 10) and `read_bytes(U, U + 1)` fails with `OutOfRange`. -/
theorem read_bytes_range_contract (u : List Nat) (s e : Nat) :
    ((∃ bs, read_bytes u s e = Except.ok bs ∧ bs.length = e - s) ↔
      (s < e ∧ e ≤ u.length)) ∧
    (¬(s < e ∧ e ≤ u.length) → read_bytes u s e = Except.error ReaderError.OutOfRange) ∧
    (10 ≤ u.length →
      ∃ bs, read_bytes u (u.length - 10) u.length = Except.ok bs ∧ bs.length = 10) ∧
    read_bytes u u.length (u.length + 1) = Except.error ReaderError.OutOfRange := by
  have hlen : ∀ s' e' : Nat, s' < e' → e' ≤ u.length →
      ((u.drop s').take (e' - s')).length = e' - s' := by
    intro s' e' h1 h2
    rw [List.length_take, List.length_drop]
    omega
  refine ⟨⟨fun ⟨bs, hbs, hb⟩ => ?_, fun hr => ?_⟩, fun hr => ?_, fun h10 => ?_, ?_⟩
  · by_contra hr
    rw [read_bytes, if_neg hr] at hbs
    cases hbs
  · refine ⟨(u.drop s).take (e - s), ?_, hlen s e hr.1 hr.2⟩
    rw [read_bytes, if_pos hr]
  · rw [read_bytes, if_neg hr]
  · have hr : u.length - 10 < u.length ∧ u.length ≤ u.length := ⟨by omega, le_refl _⟩
    refine ⟨(u.drop (u.length - 10)).take (u.length - (u.length - 10)), ?_, ?_⟩
    · rw [read_bytes, if_pos hr]
    · rw [hlen _ _ hr.1 hr.2]; omega
  · rw [read_bytes, if_neg (by omega)]

/-- Witness for C3 at a 12-byte stream: `read_bytes(2, 12)` yields 10
bytes and `read_bytes(12, 13)` is `OutOfRange`. -/
theorem read_bytes_range_contract_witness :
    (∃ bs, read_bytes [0, 1, 2, 3, 4, 5, 6, 7, 8, 9, 10, 11] 2 12 = Except.ok bs ∧
      bs.length = 10) ∧
    read_bytes [0, 1, 2, 3, 4, 5, 6, 7, 8, 9, 10, 11] 12 13 =
      Except.error ReaderError.OutOfRange :=
  ⟨(read_bytes_range_contract [0, 1, 2, 3, 4, 5, 6, 7, 8, 9, 10, 11] 0 0).2.2.1
      (by decide),
   (read_bytes_range_contract [0, 1, 2, 3, 4, 5, 6, 7, 8, 9, 10, 11] 0 0).2.2.2⟩

/-! ## The indexer build (C6)

The build algorithm (spec 4.C) is driven by the emission of the deflate
decoder: a sequence of decoded chunks, each tagged with whether
`try_checkpoint_here()` offers a snapshot (the decoder sits at a deflate
block boundary) and with the compressed offset reported by the adapter.
The walker keeps `uc_written` and `lines_seen`; after a chunk it emits a
checkpoint when at least `S` uncompressed bytes have passed since the last
one **and** a snapshot is available.  `uc_size` is the distance to the next
checkpoint, the last one patched to reach EOF. -/

structure BuildStep where
  chunk : List Nat
  boundary : Bool
  c_off : Nat
  deriving DecidableEq, Repr

/-- Total uncompressed size produced by the decoder emission. -/
def totalLen (steps : List BuildStep) : Nat :=
  (steps.map (fun st => st.chunk.length)).sum

/-- Modelled from the spec (4.C build loop): the `(uc_offset, c_offset,
num_lines)` triples at which checkpoints are emitted, scanning chunks with
running `uc_written`, `lines_seen` and the offset of the last checkpoint. -/
def buildOffsets (S : Nat) : List BuildStep → Nat → Nat → Nat → List (Nat × Nat × Nat)
  | [], _, _, _ => []
  | st :: rest, uc, lines, lastCp =>
    if S ≤ uc + st.chunk.length - lastCp ∧ st.boundary = true then
      (uc + st.chunk.length, st.c_off, lines + st.chunk.count NL) ::
        buildOffsets S rest (uc + st.chunk.length) (lines + st.chunk.count NL)
          (uc + st.chunk.length)
    else
      buildOffsets S rest (uc + st.chunk.length) (lines + st.chunk.count NL) lastCp

/-- Modelled from the spec (4.C): assemble checkpoint records, with
`uc_size` reaching to the next checkpoint and the last patched to EOF (no
terminator checkpoint is emitted).  Decoder-state fields (`bits`,
`dict_compressed`, `line_offset_in_block`) are opaque here. -/
def assignSizes (U : Nat) : List (Nat × Nat × Nat) → Nat → List CheckpointInfo
  | [], _ => []
  | [x], i =>
    [{ checkpoint_idx := i, uc_offset := x.1, uc_size := U - x.1, c_offset := x.2.1,
       bits := 0, dict_compressed := [], num_lines := x.2.2, line_offset_in_block := 0 }]
  | x :: y :: rest, i =>
    { checkpoint_idx := i, uc_offset := x.1, uc_size := y.1 - x.1, c_offset := x.2.1,
      bits := 0, dict_compressed := [], num_lines := x.2.2, line_offset_in_block := 0 } ::
      assignSizes U (y :: rest) (i + 1)

/-- Modelled from the spec: a successful `Indexer.build()` over the decoder
emission `steps` with checkpoint interval `S`. -/
def indexerBuild (S : Nat) (steps : List BuildStep) : List CheckpointInfo :=
  assignSizes (totalLen steps) (buildOffsets S steps 0 0 0) 0

theorem buildOffsets_mem (S : Nat) (hS : 1 ≤ S) : ∀ (steps : List BuildStep)
    (uc lines lastCp : Nat), lastCp ≤ uc →
    ∀ x ∈ buildOffsets S steps uc lines lastCp,
      lastCp + S ≤ x.1 ∧ x.1 ≤ uc + totalLen steps ∧ lines ≤ x.2.2 ∧
        ∃ st ∈ steps, x.2.1 = st.c_off := by
  intro steps
  induction steps with
  | nil => intro uc lines lastCp _ x hx; simp [buildOffsets] at hx
  | cons st rest ih =>
    intro uc lines lastCp hluc x hx
    have htot : totalLen (st :: rest) = st.chunk.length + totalLen rest := by
      simp [totalLen]
    rw [buildOffsets] at hx
    by_cases hcond : S ≤ uc + st.chunk.length - lastCp ∧ st.boundary = true
    · rw [if_pos hcond] at hx
      rcases List.mem_cons.mp hx with h | h
      · subst h
        exact ⟨show lastCp + S ≤ uc + st.chunk.length by omega,
          show uc + st.chunk.length ≤ uc + totalLen (st :: rest) by omega,
          show lines ≤ lines + st.chunk.count NL by omega,
          st, List.mem_cons_self _ _, rfl⟩
      · have := ih (uc + st.chunk.length) (lines + st.chunk.count NL)
          (uc + st.chunk.length) (le_refl _) x h
        obtain ⟨st', hst', hco⟩ := this.2.2.2
        exact ⟨by omega, by omega, by omega, st', List.mem_cons_of_mem _ hst', hco⟩
    · rw [if_neg hcond] at hx
      have := ih (uc + st.chunk.length) (lines + st.chunk.count NL) lastCp
        (by omega) x hx
      obtain ⟨st', hst', hco⟩ := this.2.2.2
      exact ⟨by omega, by omega, by omega, st', List.mem_cons_of_mem _ hst', hco⟩

theorem buildOffsets_chain (S : Nat) (hS : 1 ≤ S) : ∀ (steps : List BuildStep)
    (uc lines lastCp : Nat), lastCp ≤ uc →
    List.Pairwise (· ≤ ·) (steps.map BuildStep.c_off) →
    List.Chain' (fun a b : Nat × Nat × Nat =>
      a.1 + S ≤ b.1 ∧ a.2.1 ≤ b.2.1 ∧ a.2.2 ≤ b.2.2)
      (buildOffsets S steps uc lines lastCp) := by
  intro steps
  induction steps with
  | nil => intro uc lines lastCp _ _; simp [buildOffsets]
  | cons st rest ih =>
    intro uc lines lastCp hluc hpw
    rw [List.map_cons, List.pairwise_cons] at hpw
    rw [buildOffsets]
    by_cases hcond : S ≤ uc + st.chunk.length - lastCp ∧ st.boundary = true
    · rw [if_pos hcond]
      refine List.chain'_cons'.mpr ⟨?_, ih _ _ _ (le_refl _) hpw.2⟩
      intro y hy
      have hmem := List.mem_of_mem_head? hy
      have hspec := buildOffsets_mem S hS rest (uc + st.chunk.length)
        (lines + st.chunk.count NL) (uc + st.chunk.length) (le_refl _) y hmem
      obtain ⟨st', hst', hco⟩ := hspec.2.2.2
      refine ⟨show uc + st.chunk.length + S ≤ y.1 by omega, ?_,
        show lines + st.chunk.count NL ≤ y.2.2 by omega⟩
      show st.c_off ≤ y.2.1
      rw [hco]
      exact hpw.1 st'.c_off (List.mem_map_of_mem _ hst')
    · rw [if_neg hcond]
      exact ih _ _ _ (by omega) hpw.2

theorem assignSizes_head (U : Nat) : ∀ (y : Nat × Nat × Nat)
    (l : List (Nat × Nat × Nat)) (i : Nat) (z : CheckpointInfo),
    (assignSizes U (y :: l) i).head? = some z →
    z.uc_offset = y.1 ∧ z.c_offset = y.2.1 ∧ z.num_lines = y.2.2 := by
  intro y l i z h
  cases l with
  | nil => rw [assignSizes] at h; cases h; exact ⟨rfl, rfl, rfl⟩
  | cons y' l' => rw [assignSizes] at h; cases h; exact ⟨rfl, rfl, rfl⟩

theorem assignSizes_chain (U S : Nat) (hS : 1 ≤ S) :
    ∀ (offs : List (Nat × Nat × Nat)) (i : Nat),
    List.Chain' (fun a b : Nat × Nat × Nat =>
      a.1 + S ≤ b.1 ∧ a.2.1 ≤ b.2.1 ∧ a.2.2 ≤ b.2.2) offs →
    List.Chain' (fun c c' : CheckpointInfo =>
      c.uc_offset < c'.uc_offset ∧ c'.uc_offset = c.uc_offset + c.uc_size ∧
      c.c_offset ≤ c'.c_offset ∧ c.num_lines ≤ c'.num_lines)
      (assignSizes U offs i) := by
  intro offs
  induction offs with
  | nil => intro i _; simp [assignSizes]
  | cons x l ih =>
    intro i hch
    cases l with
    | nil => simp [assignSizes]
    | cons y l' =>
      have hxy := (List.chain'_cons.mp hch).1
      have hch' := (List.chain'_cons.mp hch).2
      rw [assignSizes]
      refine List.chain'_cons'.mpr ⟨?_, ih (i + 1) hch'⟩
      intro z hz
      have := assignSizes_head U y l' (i + 1) z hz
      refine ⟨?_, ?_, ?_, ?_⟩ <;> simp only [this.1, this.2.1, this.2.2] <;> omega

theorem assignSizes_mem (U : Nat) : ∀ (offs : List (Nat × Nat × Nat)) (i : Nat),
    ∀ c ∈ assignSizes U offs i, ∃ x ∈ offs, c.uc_offset = x.1 := by
  intro offs
  induction offs with
  | nil => intro i c hc; simp [assignSizes] at hc
  | cons x l ih =>
    intro i c hc
    cases l with
    | nil =>
      rw [assignSizes] at hc
      rcases List.mem_cons.mp hc with h | h
      · subst h; exact ⟨x, List.mem_cons_self _ _, rfl⟩
      · simp at h
    | cons y l' =>
      rw [assignSizes] at hc
      rcases List.mem_cons.mp hc with h | h
      · subst h; exact ⟨x, List.mem_cons_self _ _, rfl⟩
      · obtain ⟨x', hx', hux⟩ := ih (i + 1) c h
        exact ⟨x', List.mem_cons_of_mem _ hx', hux⟩

/-- Invariant chain of a built index (shared by the C6 and C7 theorems). -/
theorem indexerBuild_chain (S : Nat) (steps : List BuildStep) (hS : 1 ≤ S)
    (hc : List.Pairwise (· ≤ ·) (steps.map BuildStep.c_off)) :
    List.Chain' (fun c c' : CheckpointInfo =>
      c.uc_offset < c'.uc_offset ∧ c'.uc_offset = c.uc_offset + c.uc_size ∧
      c.c_offset ≤ c'.c_offset ∧ c.num_lines ≤ c'.num_lines)
      (indexerBuild S steps) :=
  assignSizes_chain (totalLen steps) S hS (buildOffsets S steps 0 0 0) 0
    (buildOffsets_chain S hS steps 0 0 0 (le_refl _) hc)

/-- Bounds on every checkpoint of a built index (shared helper). -/
theorem indexerBuild_bounds (S : Nat) (steps : List BuildStep) (hS : 1 ≤ S) :
    ∀ c ∈ indexerBuild S steps, S ≤ c.uc_offset ∧ c.uc_offset ≤ totalLen steps := by
  intro c hc
  obtain ⟨x, hx, hux⟩ := assignSizes_mem (totalLen steps) (buildOffsets S steps 0 0 0) 0 c hc
  have := buildOffsets_mem S hS steps 0 0 0 (le_refl _) x hx
  constructor <;> omega

/-- C6 fails as stated: a 5-byte stream indexed with S = 4 whose decoder
offers a block boundary only after the whole stream yields exactly one
checkpoint, at `uc_offset = 5`, not 0 — the build loop emits a checkpoint
only after at least S uncompressed bytes, so no checkpoint sits at offset
0 (which is also why `find_checkpoint(0)` returns the sentinel instead of
a real record). -/
theorem indexer_first_checkpoint_counterexample :
    ((indexerBuild 4 [⟨[104, 105, 10, 106, 10], true, 20⟩]).map
      CheckpointInfo.uc_offset) = [5] ∧ (5 : Nat) ≠ 0 := by
  decide

/-- C6 (amended): every checkpoint sequence produced by a successful build
with interval `S ≥ 1` (over a decoder emission with non-decreasing
compressed offsets) satisfies: `uc_offset` strictly increases with
`cp[i+1].uc_offset = cp[i].uc_offset + cp[i].uc_size`, `c_offset` and
`num_lines` are non-decreasing, every checkpoint has `checkpoint_idx ≥ 0`,
`num_lines ≥ 0` and `uc_offset ≥ S` (in particular the first checkpoint
has `uc_offset ≥ S > 0`, not 0). -/
theorem indexer_checkpoint_invariants (S : Nat) (steps : List BuildStep)
    (hS : 1 ≤ S) (hc : List.Pairwise (· ≤ ·) (steps.map BuildStep.c_off)) :
    List.Chain' (fun c c' : CheckpointInfo =>
      c.uc_offset < c'.uc_offset ∧ c'.uc_offset = c.uc_offset + c.uc_size ∧
      c.c_offset ≤ c'.c_offset ∧ c.num_lines ≤ c'.num_lines)
      (indexerBuild S steps) ∧
    (∀ c ∈ indexerBuild S steps,
      S ≤ c.uc_offset ∧ 0 ≤ c.checkpoint_idx ∧ 0 ≤ c.uc_offset ∧ 0 ≤ c.num_lines) :=
  ⟨indexerBuild_chain S steps hS hc,
   fun c hc' => ⟨(indexerBuild_bounds S steps hS c hc').1, Nat.zero_le _,
     Nat.zero_le _, Nat.zero_le _⟩⟩

/-- Witness for C6 (amended): a two-chunk emission with S = 4 produces two
checkpoints satisfying all the invariants. -/
theorem indexer_checkpoint_invariants_witness :
    List.Chain' (fun c c' : CheckpointInfo =>
      c.uc_offset < c'.uc_offset ∧ c'.uc_offset = c.uc_offset + c.uc_size ∧
      c.c_offset ≤ c'.c_offset ∧ c.num_lines ≤ c'.num_lines)
      (indexerBuild 4 [⟨[104, 105, 10, 106, 10], true, 20⟩, ⟨[107, 108, 109, 10], true, 24⟩]) ∧
    (∀ c ∈ indexerBuild 4 [⟨[104, 105, 10, 106, 10], true, 20⟩, ⟨[107, 108, 109, 10], true, 24⟩],
      4 ≤ c.uc_offset ∧ 0 ≤ c.checkpoint_idx ∧ 0 ≤ c.uc_offset ∧ 0 ≤ c.num_lines) :=
  indexer_checkpoint_invariants 4
    [⟨[104, 105, 10, 106, 10], true, 20⟩, ⟨[107, 108, 109, 10], true, 24⟩]
    (by decide) (by decide)

/-! ## Locating checkpoints (C7) -/

theorem findCheckpointGo_eq (t : Nat) : ∀ (cps : List CheckpointInfo)
    (acc : Option CheckpointInfo),
    findCheckpointGo t acc cps =
      Option.or ((cps.filter (fun c => decide (c.uc_offset ≤ t))).getLast?) acc := by
  intro cps
  induction cps with
  | nil => intro acc; rfl
  | cons c rest ih =>
    intro acc
    rw [findCheckpointGo, List.filter_cons]
    by_cases hc : c.uc_offset ≤ t
    · rw [if_pos hc, if_pos (show decide (c.uc_offset ≤ t) = true by simpa using hc),
        ih (some c)]
      cases hrest : rest.filter (fun c => decide (c.uc_offset ≤ t)) with
      | nil => rfl
      | cons d l =>
        rw [List.getLast?_cons_cons,
          List.getLast?_eq_getLast (d :: l) (by simp), Option.or_some, Option.or_some]
    · rw [if_neg hc,
        if_neg (show ¬ decide (c.uc_offset ≤ t) = true by simpa using hc), ih acc]

theorem pairwise_le_getLast : ∀ (l : List CheckpointInfo) (hne : l ≠ []),
    List.Pairwise (fun a b : CheckpointInfo => a.uc_offset < b.uc_offset) l →
    ∀ x ∈ l, x.uc_offset ≤ (l.getLast hne).uc_offset := by
  intro l
  induction l with
  | nil => intro hne; exact absurd rfl hne
  | cons a l ih =>
    intro hne hpw x hx
    cases l with
    | nil =>
      rcases List.mem_cons.mp hx with h | h
      · subst h; exact le_refl _
      · simp at h
    | cons b l' =>
      rw [List.getLast_cons (by simp)]
      rcases List.mem_cons.mp hx with h | h
      · subst h
        have hlast := List.getLast_mem (l := b :: l') (by simp)
        exact le_of_lt ((List.pairwise_cons.mp hpw).1 _ hlast)
      · exact ih (by simp) (List.pairwise_cons.mp hpw).2 x h

instance : IsTrans CheckpointInfo (fun a b => a.uc_offset < b.uc_offset) :=
  ⟨fun _ _ _ h1 h2 => lt_trans h1 h2⟩

/-- C7 fails as stated: over the built index of a 5-byte stream with
S = 4, whose only checkpoint sits at `uc_offset = 5`, the in-range target
T = 3 (0 < 3 ≤ U = 5) has no checkpoint with `uc_offset ≤ 3` at all, and
`find_checkpoint(3)` returns the sentinel `none` rather than "the greatest
checkpoint whose uc_offset is ≤ T". -/
theorem find_checkpoint_small_target_counterexample :
    (0 : Nat) < 3 ∧ 3 ≤ totalLen [⟨[104, 105, 10, 106, 10], true, 20⟩] ∧
    indexerBuild 4 [⟨[104, 105, 10, 106, 10], true, 20⟩] ≠ [] ∧
    findCheckpoint (indexerBuild 4 [⟨[104, 105, 10, 106, 10], true, 20⟩]) 3 = none := by
  decide

/-- C7 (amended): over every built index, `find_checkpoint(0)` returns the
no-checkpoint sentinel; for `0 < T`, `find_checkpoint(T)` returns the
greatest checkpoint whose `uc_offset ≤ T` when one exists and the sentinel
when none does (which can happen for `T` below the first checkpoint, since
checkpoints start at `uc_offset ≥ S`); and for `T` beyond the uncompressed
size it returns the last checkpoint of a non-empty sequence. -/
theorem find_checkpoint_semantics (S : Nat) (steps : List BuildStep) (t : Nat)
    (hS : 1 ≤ S) (hc : List.Pairwise (· ≤ ·) (steps.map BuildStep.c_off)) :
    findCheckpoint (indexerBuild S steps) 0 = none ∧
    (0 < t → (∀ c ∈ indexerBuild S steps, ¬ c.uc_offset ≤ t) →
      findCheckpoint (indexerBuild S steps) t = none) ∧
    (0 < t → ∀ c₀ ∈ indexerBuild S steps, c₀.uc_offset ≤ t →
      ∃ r ∈ indexerBuild S steps, findCheckpoint (indexerBuild S steps) t = some r ∧
        r.uc_offset ≤ t ∧
        ∀ c' ∈ indexerBuild S steps, c'.uc_offset ≤ t → c'.uc_offset ≤ r.uc_offset) ∧
    (totalLen steps < t → indexerBuild S steps ≠ [] →
      findCheckpoint (indexerBuild S steps) t = (indexerBuild S steps).getLast?) := by
  have hsorted : List.Pairwise
      (fun a b : CheckpointInfo => a.uc_offset < b.uc_offset) (indexerBuild S steps) := by
    have hch := (indexerBuild_chain S steps hS hc).imp
      (fun a b hab => hab.1)
    exact (List.chain'_iff_pairwise.mp hch)
  refine ⟨by rw [findCheckpoint, if_pos rfl], fun ht hnone => ?_, fun ht c₀ hc₀ hle => ?_,
    fun htot hne => ?_⟩
  · rw [findCheckpoint, if_neg (by omega), findCheckpointGo_eq]
    have hnil : (indexerBuild S steps).filter (fun c => decide (c.uc_offset ≤ t)) = [] := by
      apply List.filter_eq_nil_iff.mpr
      intro c hcmem
      simpa using hnone c hcmem
    rw [hnil]
    rfl
  · have hmemf : c₀ ∈ (indexerBuild S steps).filter (fun c => decide (c.uc_offset ≤ t)) :=
      List.mem_filter.mpr ⟨hc₀, by simpa using hle⟩
    have hfne : (indexerBuild S steps).filter (fun c => decide (c.uc_offset ≤ t)) ≠ [] :=
      List.ne_nil_of_mem hmemf
    have hsorted' : List.Pairwise
        (fun a b : CheckpointInfo => a.uc_offset < b.uc_offset)
        ((indexerBuild S steps).filter (fun c => decide (c.uc_offset ≤ t))) :=
      hsorted.sublist (List.filter_sublist _)
    refine ⟨((indexerBuild S steps).filter (fun c => decide (c.uc_offset ≤ t))).getLast hfne,
      ?_, ?_, ?_, ?_⟩
    · exact List.mem_of_mem_filter (List.getLast_mem hfne)
    · rw [findCheckpoint, if_neg (by omega), findCheckpointGo_eq,
        List.getLast?_eq_getLast _ hfne]
      rfl
    · have := List.mem_filter.mp (List.getLast_mem hfne)
      simpa using this.2
    · intro c' hc' hle'
      exact pairwise_le_getLast _ hfne hsorted' c'
        (List.mem_filter.mpr ⟨hc', by simpa using hle'⟩)
  · have hall : (indexerBuild S steps).filter (fun c => decide (c.uc_offset ≤ t)) =
        indexerBuild S steps := by
      apply List.filter_eq_self.mpr
      intro c hcmem
      have := (indexerBuild_bounds S steps hS c hcmem).2
      simp only [decide_eq_true_eq]
      omega
    rw [findCheckpoint, if_neg (by omega), findCheckpointGo_eq, hall,
      List.getLast?_eq_getLast _ hne]
    rfl

/-- Witness for C7 (amended): the two-checkpoint index of a 9-byte stream,
probed at target 0 (sentinel). -/
theorem find_checkpoint_semantics_witness :
    ((1 : Nat) ≤ 4 ∧ List.Pairwise (· ≤ ·)
      ([⟨[104, 105, 10, 106, 10], true, 20⟩,
        ⟨[107, 108, 109, 10], true, 24⟩].map BuildStep.c_off)) ∧
    findCheckpoint (indexerBuild 4
      [⟨[104, 105, 10, 106, 10], true, 20⟩, ⟨[107, 108, 109, 10], true, 24⟩]) 0 = none :=
  ⟨⟨by decide, by decide⟩,
   (find_checkpoint_semantics 4
     [⟨[104, 105, 10, 106, 10], true, 20⟩, ⟨[107, 108, 109, 10], true, 24⟩] 6
     (by decide) (by decide)).1⟩

/-! ## Whole-file round trip (C4) -/

/-- Modelled from the spec: sequential decompression of the gzip member -
the concatenation, in order, of the chunks the deflate decoder emits when
opened at the stream start (spec 4.A `open_sequential`). -/
def seqDecode (steps : List BuildStep) : List Nat :=
  (steps.map BuildStep.chunk).flatten

theorem seqDecode_length (steps : List BuildStep) :
    (seqDecode steps).length = totalLen steps := by
  induction steps with
  | nil => rfl
  | cons st rest ih =>
    simp only [seqDecode, totalLen, List.map_cons, List.flatten_cons, List.length_append,
      List.sum_cons] at ih ⊢
    omega

/-- C4 fails as stated for the degenerate empty gzip member: `U = 0`, and
`read_bytes(0, 0)` is `OutOfRange` (the spec's own range contract requires
`start < end`), so the whole-range read does not reproduce the (empty)
sequential decompression. -/
theorem whole_file_roundtrip_counterexample :
    cursorReadBytes (indexerBuild 4 []) (seqDecode []) 0 (seqDecode []).length ≠
      Except.ok (seqDecode []) := by
  intro h
  exact Except.noConfusion h

/-- C4 (amended): for every single-member gzip file with uncompressed size
`U > 0`, reading the whole range through the checkpoint-based reader,
`read_bytes(0, U)`, yields byte-for-byte the output of sequentially
decompressing the member — whatever checkpoint list the index holds. -/
theorem whole_file_roundtrip (steps : List BuildStep) (cps : List CheckpointInfo)
    (hpos : 0 < (seqDecode steps).length) :
    cursorReadBytes cps (seqDecode steps) 0 (seqDecode steps).length =
      Except.ok (seqDecode steps) := by
  rw [cursorReadBytes_eq_read_bytes, read_bytes, if_pos ⟨hpos, le_refl _⟩]
  rw [List.drop_zero, Nat.sub_zero, List.take_length]

/-- Witness for C4 (amended): a two-chunk member decodes to "hi\x0a!" both
sequentially and through the cursor. -/
theorem whole_file_roundtrip_witness :
    (0 : Nat) < (seqDecode [⟨[104, 105], true, 3⟩, ⟨[10, 33], true, 5⟩]).length ∧
    cursorReadBytes (indexerBuild 2 [⟨[104, 105], true, 3⟩, ⟨[10, 33], true, 5⟩])
      (seqDecode [⟨[104, 105], true, 3⟩, ⟨[10, 33], true, 5⟩]) 0
      (seqDecode [⟨[104, 105], true, 3⟩, ⟨[10, 33], true, 5⟩]).length =
      Except.ok (seqDecode [⟨[104, 105], true, 3⟩, ⟨[10, 33], true, 5⟩]) :=
  ⟨by decide,
   whole_file_roundtrip [⟨[104, 105], true, 3⟩, ⟨[10, 33], true, 5⟩]
     (indexerBuild 2 [⟨[104, 105], true, 3⟩, ⟨[10, 33], true, 5⟩]) (by decide)⟩

/-! ## Line-number reading (C5) -/

/-- Modelled from the spec: the total line count `L` discovered during
indexing — the number of newline bytes in the uncompressed stream. -/
def numLines (u : List Nat) : Nat := u.count NL

/-- All complete lines of the stream, in order. -/
def allLines (u : List Nat) : List (List Nat) :=
  (linesTable u 0 0).map (lineContent u)

/-- Modelled from the spec (4.E): `read_lines(first, last)` with 1-based
inclusive line numbers; fails with `OutOfRange` if `first < 1` or
`last > L`. -/
def read_lines (u : List Nat) (first last : Nat) :
    Except ReaderError (List (List Nat)) :=
  if first < 1 ∨ numLines u < last then Except.error ReaderError.OutOfRange
  else Except.ok (((allLines u).drop (first - 1)).take (last + 1 - first))

theorem linesTable_length (v : List Nat) : ∀ i p,
    (linesTable v i p).length = v.count NL := by
  induction v with
  | nil => intro i p; simp [linesTable]
  | cons b v ih =>
    intro i p
    by_cases hb : b = NL
    · rw [linesTable, if_pos hb, List.length_cons, ih, List.count_cons]
      simp [hb]
    · rw [linesTable, if_neg hb, ih, List.count_cons]
      simp [hb]

/-- C5: `read_lines(first, last)` uses 1-based inclusive line numbers: for
`1 ≤ first ≤ last ≤ L` it returns exactly `last - first + 1` lines, and it
fails with `OutOfRange` whenever `first < 1` or `last > L`; in particular
`read_lines(0, 5)` fails with `OutOfRange`. -/
theorem read_lines_contract (u : List Nat) (first last : Nat) :
    (1 ≤ first → first ≤ last → last ≤ numLines u →
      ∃ ls, read_lines u first last = Except.ok ls ∧ ls.length = last - first + 1) ∧
    (first < 1 ∨ numLines u < last →
      read_lines u first last = Except.error ReaderError.OutOfRange) ∧
    read_lines u 0 5 = Except.error ReaderError.OutOfRange := by
  have hlen : (allLines u).length = numLines u := by
    rw [allLines, List.length_map, linesTable_length]
    rfl
  refine ⟨fun h1 h2 h3 => ?_, fun hr => ?_, ?_⟩
  · refine ⟨((allLines u).drop (first - 1)).take (last + 1 - first), ?_, ?_⟩
    · rw [read_lines, if_neg (by omega)]
    · rw [List.length_take, List.length_drop, hlen]
      omega
  · rw [read_lines, if_pos hr]
  · rw [read_lines, if_pos (by omega)]

/-- Witness for C5: a three-line stream — `read_lines(1, 3)` returns 3
lines, `read_lines(0, 5)` is `OutOfRange`. -/
theorem read_lines_contract_witness :
    (∃ ls, read_lines [97, 10, 98, 10, 99, 10] 1 3 = Except.ok ls ∧ ls.length = 3) ∧
    read_lines [97, 10, 98, 10, 99, 10] 0 5 = Except.error ReaderError.OutOfRange :=
  ⟨(read_lines_contract [97, 10, 98, 10, 99, 10] 1 3).1 (by decide) (by decide)
      (by decide),
   (read_lines_contract [97, 10, 98, 10, 99, 10] 0 5).2.2⟩

/-! ## Rebuild detection (C8) -/

/-- Index header fields relevant to staleness detection (spec section 6):
format version and the content-derived source fingerprint. -/
structure IndexHeader where
  version : Nat
  fingerprint : Nat
  deriving DecidableEq, Repr

/-- Modelled from the spec (4.C) as pinned down by the in-repo test-suite:
`needs_rebuild()` is true iff the index file is missing (`none`), its
stored fingerprint differs from the current source, or the stored format
version mismatches.  The `force_rebuild` flag is accepted by the
constructor but does not enter the check — `test_indexer_build_and_rebuild`
asserts `need_rebuild()` is false for a valid up-to-date index even when
`force_rebuild=True`; the flag only makes `build()` rebuild. -/
def need_rebuild (idx : Option IndexHeader) (curFingerprint curVersion : Nat)
    ( force_rebuild : Bool) : Bool :=
  match idx with
  | none => true
  | some h => decide (h.fingerprint ≠ curFingerprint) || decide (h.version ≠ curVersion)

/-- C8 fails as stated: with a present index whose fingerprint and version
both match the source, an indexer constructed with `force_rebuild` set
still reports `needs_rebuild() = false` — the in-repo test asserts exactly
this ("the need_rebuild() method checks file consistency, not the
force_rebuild flag"), contradicting the claim's force-rebuild disjunct. -/
theorem need_rebuild_force_counterexample :
    need_rebuild (some ⟨1, 42⟩) 42 1 true = false := by
  decide

/-- C8 (amended): `needs_rebuild()` returns true iff the index file is
missing, the stored fingerprint differs from the current source, or the
stored format version mismatches; the `force_rebuild` flag does not affect
the check (it only forces `build()` to rebuild). -/
theorem need_rebuild_iff (idx : Option IndexHeader) (fp ver : Nat) (force : Bool) :
    need_rebuild idx fp ver force = true ↔
      (idx = none ∨ ∃ h, idx = some h ∧ (h.fingerprint ≠ fp ∨ h.version ≠ ver)) := by
  cases idx with
  | none => simp [need_rebuild]
  | some h => simp [need_rebuild]

/-! ## Reader construction with a missing index (C9) -/

/-- An on-disk index file: header sizes plus the checkpoint records. -/
structure IndexFile where
  header_U : Nat
  header_L : Nat
  checkpoints : List CheckpointInfo
  deriving DecidableEq, Repr

/-- Modelled from the spec: the index a successful build persists — header
`U = uc_written`, `L = lines_seen`, and the checkpoint sequence. -/
def indexOfSteps (S : Nat) (steps : List BuildStep) : IndexFile :=
  { header_U := totalLen steps, header_L := numLines (seqDecode steps),
    checkpoints := indexerBuild S steps }

/-- Observable state of a freshly constructed reader. -/
structure ReaderState where
  is_open : Bool
  max_bytes : Nat
  deriving DecidableEq, Repr

/-- Modelled from the spec (7: a missing index is recoverable by building)
and the in-repo test `test_bytes_reader_creation_missing_index`:
constructing a reader on a gzip path whose index file is absent from the
store auto-builds the index from the decoder emission, persists it at
`<gzip_path>.idx`, and opens with `max_bytes = U`; a missing gzip file is
a `NotFound` error. -/
def readerNew (fs : List (String × IndexFile)) (gzPath : String) (gzExists : Bool)
    (S : Nat) (steps : List BuildStep) :
    Except ReaderError (ReaderState × List (String × IndexFile)) :=
  if gzExists = false then Except.error ReaderError.NotFound
  else
    match fs.lookup (gzPath ++ ".idx") with
    | some idx => Except.ok ({ is_open := true, max_bytes := idx.header_U }, fs)
    | none =>
      Except.ok ({ is_open := true, max_bytes := (indexOfSteps S steps).header_U },
        (gzPath ++ ".idx", indexOfSteps S steps) :: fs)

/-- C9: constructing a reader on an existing gzip file whose index file is
absent does not fail with a missing-index error: the constructor builds
the index as a side effect, the reader is open with `max_bytes > 0` (for a
non-empty member), and afterwards the index file exists at
`<gzip_path>.idx`. -/
theorem reader_auto_builds_missing_index (fs : List (String × IndexFile))
    (gzPath : String) (S : Nat) (steps : List BuildStep)
    (hmiss : fs.lookup (gzPath ++ ".idx") = none) (hpos : 0 < totalLen steps) :
    ∃ r fs', readerNew fs gzPath true S steps = Except.ok (r, fs') ∧
      r.is_open = true ∧ 0 < r.max_bytes ∧
      (fs'.lookup (gzPath ++ ".idx")).isSome = true := by
  refine ⟨{ is_open := true, max_bytes := (indexOfSteps S steps).header_U },
    (gzPath ++ ".idx", indexOfSteps S steps) :: fs, ?_, rfl, hpos, ?_⟩
  · rw [readerNew, if_neg (by simp), hmiss]
  · simp [List.lookup]

/-- Witness for C9: an empty store, a one-chunk member. -/
theorem reader_auto_builds_missing_index_witness :
    (0 : Nat) < totalLen [⟨[104, 10], true, 0⟩] ∧
    ∃ r fs', readerNew [] "trace.pfw.gz" true 1 [⟨[104, 10], true, 0⟩] =
        Except.ok (r, fs') ∧
      r.is_open = true ∧ 0 < r.max_bytes ∧
      (fs'.lookup ("trace.pfw.gz" ++ ".idx")).isSome = true :=
  ⟨by decide,
   reader_auto_builds_missing_index [] "trace.pfw.gz" 1 [⟨[104, 10], true, 0⟩]
     rfl (by decide)⟩

/-! ## The `dft_reader` factory (C10) -/

/-- First argument of `dft_reader`: a gzip path (with optional index path)
or an already-constructed indexer. -/
inductive ReaderArg where
  | path (gzip_path : String) (index_path : Option String)
  | indexer (idx : IndexFile)
  deriving DecidableEq, Repr

/-- The five reader classes exposed by the extension. -/
inductive ReaderKind where
  | lineBytesReader
  | bytesReader
  | linesReader
  | jsonLinesReader
  | jsonLinesBytesReader
  deriving DecidableEq, Repr

/-- A constructed reader instance: its class and the constructor source. -/
structure ReaderInstance where
  kind : ReaderKind
  source : ReaderArg
  deriving DecidableEq, Repr

inductive PyError where
  | valueError (msg : String)
  deriving DecidableEq, Repr

/-- Translated from `src/dftracer/utils/__init__.py` (`dft_reader`):
dispatch first on whether the argument is an indexer or a path, then on
the mode string, constructing the matching reader class; any other mode
string raises `ValueError`. -/
def dft_reader (arg : ReaderArg) (mode : String) : Except PyError ReaderInstance :=
  match arg with
  | ReaderArg.indexer i =>
    if mode = "line_bytes" then
      Except.ok ⟨ReaderKind.lineBytesReader, ReaderArg.indexer i⟩
    else if mode = "bytes" then
      Except.ok ⟨ReaderKind.bytesReader, ReaderArg.indexer i⟩
    else if mode = "lines" then
      Except.ok ⟨ReaderKind.linesReader, ReaderArg.indexer i⟩
    else if mode = "json_lines" then
      Except.ok ⟨ReaderKind.jsonLinesReader, ReaderArg.indexer i⟩
    else if mode = "json_lines_bytes" then
      Except.ok ⟨ReaderKind.jsonLinesBytesReader, ReaderArg.indexer i⟩
    else
      Except.error (PyError.valueError ("Unknown mode: " ++ mode))
  | ReaderArg.path p ip =>
    if mode = "line_bytes" then
      Except.ok ⟨ReaderKind.lineBytesReader, ReaderArg.path p ip⟩
    else if mode = "bytes" then
      Except.ok ⟨ReaderKind.bytesReader, ReaderArg.path p ip⟩
    else if mode = "lines" then
      Except.ok ⟨ReaderKind.linesReader, ReaderArg.path p ip⟩
    else if mode = "json_lines" then
      Except.ok ⟨ReaderKind.jsonLinesReader, ReaderArg.path p ip⟩
    else if mode = "json_lines_bytes" then
      Except.ok ⟨ReaderKind.jsonLinesBytesReader, ReaderArg.path p ip⟩
    else
      Except.error (PyError.valueError ("Unknown mode: " ++ mode))

/-- C10: `dft_reader` returns an instance of the reader class matching the
mode argument — line-bytes, bytes, lines, json-lines, json-lines-bytes —
regardless of whether the first argument is a path or an indexer, and
raises `ValueError` for every other mode string. -/
theorem dft_reader_mode_dispatch (arg : ReaderArg) (mode : String) :
    (mode = "line_bytes" →
      (dft_reader arg mode).map ReaderInstance.kind =
        Except.ok ReaderKind.lineBytesReader) ∧
    (mode = "bytes" →
      (dft_reader arg mode).map ReaderInstance.kind =
        Except.ok ReaderKind.bytesReader) ∧
    (mode = "lines" →
      (dft_reader arg mode).map ReaderInstance.kind =
        Except.ok ReaderKind.linesReader) ∧
    (mode = "json_lines" →
      (dft_reader arg mode).map ReaderInstance.kind =
        Except.ok ReaderKind.jsonLinesReader) ∧
    (mode = "json_lines_bytes" →
      (dft_reader arg mode).map ReaderInstance.kind =
        Except.ok ReaderKind.jsonLinesBytesReader) ∧
    (mode ≠ "line_bytes" → mode ≠ "bytes" → mode ≠ "lines" → mode ≠ "json_lines" →
      mode ≠ "json_lines_bytes" →
      dft_reader arg mode = Except.error (PyError.valueError ("Unknown mode: " ++ mode))) := by
  cases arg with
  | indexer i =>
    refine ⟨fun h => by subst h; rfl, fun h => by subst h; rfl, fun h => by subst h; rfl,
      fun h => by subst h; rfl, fun h => by subst h; rfl,
      fun h1 h2 h3 h4 h5 => by simp [dft_reader, h1, h2, h3, h4, h5]⟩
  | path p ip =>
    refine ⟨fun h => by subst h; rfl, fun h => by subst h; rfl, fun h => by subst h; rfl,
      fun h => by subst h; rfl, fun h => by subst h; rfl,
      fun h1 h2 h3 h4 h5 => by simp [dft_reader, h1, h2, h3, h4, h5]⟩

/-- Witness for C10: mode "bytes" gives the bytes reader from both a path
and an indexer; the unknown mode "foo" raises `ValueError`. -/
theorem dft_reader_mode_dispatch_witness :
    (dft_reader (ReaderArg.path "trace.pfw.gz" none) "bytes").map ReaderInstance.kind =
      Except.ok ReaderKind.bytesReader ∧
    (dft_reader (ReaderArg.indexer ⟨2, 1, []⟩) "bytes").map ReaderInstance.kind =
      Except.ok ReaderKind.bytesReader ∧
    dft_reader (ReaderArg.path "trace.pfw.gz" none) "foo" =
      Except.error (PyError.valueError ("Unknown mode: " ++ "foo")) :=
  ⟨(dft_reader_mode_dispatch (ReaderArg.path "trace.pfw.gz" none) "bytes").2.1 rfl,
   (dft_reader_mode_dispatch (ReaderArg.indexer ⟨2, 1, []⟩) "bytes").2.1 rfl,
   (dft_reader_mode_dispatch (ReaderArg.path "trace.pfw.gz" none) "foo").2.2.2.2.2
     (by decide) (by decide) (by decide) (by decide) (by decide)⟩

end DFTracer
